import Mathlib

/-!
Verification of AutoDrawer (IWKMS99/AutoDrawer) against its specification.

Shallow embedding of the relevant source functions:
* `src/utils/helpers.py` — `optimize_drawing_order` (stable sort by (color, y, x));
* `src/core/state_manager.py` — `StateManager` (running/paused flags, stop, toggle_pause);
* `src/image_processing/color_matcher.py` — `ColorMatcher.map_colors`;
* `src/capture/canvas_detector.py` — grid derivation and orientation correction
  inside `CanvasDetector.detect_canvas`;
* `src/core/process_controller.py` — the click-coordinate computation and clamping of
  `clear_canvas` / `draw_image`;
* `src/utils/config_loader.py` — the delay-option part of `ConfigLoader._validate_config`.

Machine integers are `Nat`/`Int` (Python integers are unbounded).  The only
floating-point computations reached by the claims are (a) the LAB conversion and
Euclidean distance of `map_colors`, abstracted below as an explicit distance
parameter into a linearly ordered codomain, since only the induced comparison
order is consumed, and (b) the `canvas_width / cell_cols` step arithmetic of
`process_controller.py`, modelled exactly over integer fractions (the real-number
value of the expression, truncated toward zero exactly as Python `int()` does).
-/

/-! ### Data model -/

/-- An RGB color, a Python 3-tuple of (unbounded, here in-range) integers. -/
abbrev Color : Type := ℕ × ℕ × ℕ

/-- A pixel of the downsampled image as `helpers.py` receives it: `(x, y, (r, g, b))`. -/
abbrev Pixel : Type := ℕ × ℕ × Color

/-- A screen point, integer `(x, y)`. -/
abbrev Pt : Type := ℤ × ℤ

/-! ### `optimize_drawing_order` (src/utils/helpers.py, lines 5-22)

Python sorts with `key=lambda p: (p[2], p[1], p[0])`, i.e. lexicographically by
(color, y, x), colors themselves compared lexicographically; `sorted` is a stable
merge sort, so we embed it as `List.mergeSort` with a boolean lexicographic
comparison on explicit key lists. -/

/-- Lexicographic order on lists of naturals, the comparison Python uses on the
sort keys (tuples of integers compare lexicographically). -/
def lexLe : List ℕ → List ℕ → Bool
  | [], _ => true
  | _ :: _, [] => false
  | a :: as, b :: bs => if a < b then true else if b < a then false else lexLe as bs

/-- Key list of a color: the components of the tuple `(r, g, b)`. -/
def ckey (c : Color) : List ℕ := [c.1, c.2.1, c.2.2]

/-- Sort key of a pixel: the flattened tuple `(color, y, x)` from the source's
`key=lambda p: (p[2], p[1], p[0])`. -/
def pkey (p : Pixel) : List ℕ := ckey p.2.2 ++ [p.2.1, p.1]

/-- The boolean comparison `sorted` effectively uses between two pixels. -/
def pixLe (p q : Pixel) : Bool := lexLe (pkey p) (pkey q)

/-- `optimize_drawing_order`: a stable sort of the pixel list by key (color, y, x). -/
def optimize_drawing_order (pixels : List Pixel) : List Pixel :=
  pixels.mergeSort pixLe

theorem lexLe_cons (x y : ℕ) (xs ys : List ℕ) :
    lexLe (x :: xs) (y :: ys) = true ↔ (x < y ∨ (x = y ∧ lexLe xs ys = true)) := by
  simp only [lexLe]
  split_ifs with h1 h2
  · simp only [true_iff]
    exact Or.inl h1
  · simp only [false_iff]
    rintro (h | ⟨h, -⟩) <;> omega
  · constructor
    · intro h
      exact Or.inr ⟨by omega, h⟩
    · rintro (h | ⟨-, h⟩)
      · exact absurd h h1
      · exact h

theorem lexLe_refl (l : List ℕ) : lexLe l l = true := by
  induction l with
  | nil => rfl
  | cons a t ih => rw [lexLe_cons]; exact Or.inr ⟨rfl, ih⟩

theorem lexLe_trans : ∀ {a b c : List ℕ},
    lexLe a b = true → lexLe b c = true → lexLe a c = true := by
  intro a
  induction a with
  | nil => intro b c _ _; rfl
  | cons x xs ih =>
    intro b c h1 h2
    cases b with
    | nil => simp [lexLe] at h1
    | cons y ys =>
      cases c with
      | nil => simp [lexLe] at h2
      | cons z zs =>
        rw [lexLe_cons] at h1 h2 ⊢
        rcases h1 with hxy | ⟨hxy, h1'⟩ <;> rcases h2 with hyz | ⟨hyz, h2'⟩
        · exact Or.inl (by omega)
        · exact Or.inl (by omega)
        · exact Or.inl (by omega)
        · exact Or.inr ⟨by omega, ih h1' h2'⟩

theorem lexLe_total : ∀ (a b : List ℕ), lexLe a b = true ∨ lexLe b a = true := by
  intro a
  induction a with
  | nil => intro b; exact Or.inl rfl
  | cons x xs ih =>
    intro b
    cases b with
    | nil => exact Or.inr rfl
    | cons y ys =>
      rcases Nat.lt_trichotomy x y with h | h | h
      · exact Or.inl ((lexLe_cons ..).mpr (Or.inl h))
      · rcases ih ys with h' | h'
        · exact Or.inl ((lexLe_cons ..).mpr (Or.inr ⟨h, h'⟩))
        · exact Or.inr ((lexLe_cons ..).mpr (Or.inr ⟨h.symm, h'⟩))
      · exact Or.inr ((lexLe_cons ..).mpr (Or.inl h))

theorem lexLe_antisymm : ∀ {a b : List ℕ},
    lexLe a b = true → lexLe b a = true → a = b := by
  intro a
  induction a with
  | nil =>
    intro b _ h2
    cases b with
    | nil => rfl
    | cons y ys => simp [lexLe] at h2
  | cons x xs ih =>
    intro b h1 h2
    cases b with
    | nil => simp [lexLe] at h1
    | cons y ys =>
      rw [lexLe_cons] at h1 h2
      rcases h1 with h1 | ⟨h1, h1'⟩ <;> rcases h2 with h2 | ⟨h2, h2'⟩ <;> try omega
      rw [h1, ih h1' h2']

theorem lexLe_append {as bs cs ds : List ℕ} (hlen : as.length = bs.length)
    (h : lexLe (as ++ cs) (bs ++ ds) = true) : lexLe as bs = true := by
  induction as generalizing bs with
  | nil => rfl
  | cons x xs ih =>
    cases bs with
    | nil => simp at hlen
    | cons y ys =>
      simp only [List.cons_append] at h
      rw [lexLe_cons] at h ⊢
      rcases h with h | ⟨h, h'⟩
      · exact Or.inl h
      · exact Or.inr ⟨h, ih (by simpa using hlen) h'⟩

theorem pixLe_trans {a b c : Pixel} (h1 : pixLe a b = true) (h2 : pixLe b c = true) :
    pixLe a c = true := lexLe_trans h1 h2

theorem pixLe_total (a b : Pixel) : (pixLe a b || pixLe b a) = true := by
  rcases lexLe_total (pkey a) (pkey b) with h | h <;> simp [pixLe, h]

/-- Helper for the stability part of C2: a list all of whose elements share one
sort key is pairwise `pixLe`-ordered. -/
theorem pairwise_of_same_key (k : List ℕ) :
    ∀ (m : List Pixel), (∀ x ∈ m, pkey x = k) →
      m.Pairwise (fun p q => pixLe p q = true) := by
  intro m
  induction m with
  | nil => intro _; exact List.Pairwise.nil
  | cons a t ih =>
    intro hall
    refine List.Pairwise.cons ?_ (ih fun x hx => hall x (List.mem_cons_of_mem a hx))
    intro b hb
    have ha : pkey a = k := hall a (List.mem_cons_self a t)
    have hb' : pkey b = k := hall b (List.mem_cons_of_mem a hb)
    simp only [pixLe, ha, hb']
    exact lexLe_refl k

/-- C2: `optimize_drawing_order` permutes its input, sorts it non-decreasingly
under the key (color, row, col), and is stable: the elements sharing any one key
appear in the output in exactly their input order. -/
theorem optimize_drawing_order_spec (l : List Pixel) :
    (optimize_drawing_order l).Perm l ∧
    (optimize_drawing_order l).Pairwise (fun p q => pixLe p q = true) ∧
    ∀ k : List ℕ,
      (optimize_drawing_order l).filter (fun p => pkey p = k) =
        l.filter (fun p => pkey p = k) := by
  simp only [optimize_drawing_order]
  refine ⟨List.mergeSort_perm l pixLe, ?_, ?_⟩
  · exact @List.sorted_mergeSort Pixel pixLe (fun a b c hab hbc => pixLe_trans hab hbc) pixLe_total l
  · intro k
    have hself : (l.filter (fun p => decide (pkey p = k))).filter
        (fun p => decide (pkey p = k)) = l.filter (fun p => decide (pkey p = k)) := by
      refine List.filter_eq_self.mpr ?_
      intro a ha
      exact (List.mem_filter.mp ha).2
    have hkeys : ∀ x ∈ l.filter (fun p => decide (pkey p = k)), pkey x = k := by
      intro x hx
      simpa using (List.mem_filter.mp hx).2
    have hpw := pairwise_of_same_key k _ hkeys
    have hsub : (l.filter (fun p => decide (pkey p = k))).Sublist
        (l.mergeSort pixLe) :=
      @List.sublist_mergeSort Pixel pixLe l (fun a b c hab hbc => pixLe_trans hab hbc)
        pixLe_total _ hpw (List.filter_sublist l)
    have hsub2 : (l.filter (fun p => decide (pkey p = k))).Sublist
        ((l.mergeSort pixLe).filter (fun p => decide (pkey p = k))) := by
      have := List.Sublist.filter (fun p => decide (pkey p = k)) hsub
      rwa [hself] at this
    have hperm : ((l.mergeSort pixLe).filter (fun p => decide (pkey p = k))).Perm
        (l.filter (fun p => decide (pkey p = k))) :=
      (List.mergeSort_perm l pixLe).filter _
    exact (hsub2.eq_of_length hperm.length_eq.symm).symm

/-! ### Color transitions of the optimized order (C5) -/

/-- Color of a pixel tuple `(x, y, color)`. -/
def colorOf (p : Pixel) : Color := p.2.2

/-- Number of adjacent pairs with different values in a list (color transitions). -/
def changes : List Color → ℕ
  | [] => 0
  | [_] => 0
  | a :: b :: t => (if a = b then 0 else 1) + changes (b :: t)

/-- Number of color transitions in a pixel sequence: adjacent pairs whose colors differ. -/
def transitions (l : List Pixel) : ℕ := changes (l.map colorOf)

/-- Number of distinct colors present in a pixel sequence. -/
def distinctColors (l : List Pixel) : ℕ := (l.map colorOf).toFinset.card

/-- The color of each maximal contiguous run of equal colors, in order. -/
def runColors : List Color → List Color
  | [] => []
  | [a] => [a]
  | a :: b :: t => if a = b then runColors (b :: t) else a :: runColors (b :: t)

/-- Number of distinct colors that occupy exactly one contiguous run of the sequence. -/
def singleRunColors (l : List Pixel) : ℕ :=
  ((l.map colorOf).toFinset.filter
    (fun c => (runColors (l.map colorOf)).count c = 1)).card

theorem ckey_inj {c d : Color} (h : ckey c = ckey d) : c = d := by
  obtain ⟨r, g, b⟩ := c
  obtain ⟨r', g', b'⟩ := d
  simp only [ckey, List.cons.injEq, and_true] at h
  simp [h.1, h.2.1, h.2.2]

/-- In a list of colors sorted under the lexicographic order, every color is
contiguous, so the number of adjacent changes is the number of distinct colors
minus one. -/
theorem changes_sorted :
    ∀ cs : List Color,
      cs.Pairwise (fun c d => lexLe (ckey c) (ckey d) = true) →
        cs ≠ [] → changes cs + 1 = cs.toFinset.card := by
  intro cs
  induction cs with
  | nil => intro _ h; exact absurd rfl h
  | cons a t ih =>
    intro hpw _
    cases t with
    | nil => simp [changes]
    | cons b t' =>
      have hab : lexLe (ckey a) (ckey b) = true := (List.pairwise_cons.mp hpw).1 b
        (List.mem_cons_self b t')
      have htail : (b :: t').Pairwise (fun c d => lexLe (ckey c) (ckey d) = true) :=
        (List.pairwise_cons.mp hpw).2
      have ihr := ih htail (by simp)
      by_cases heqab : a = b
      · subst heqab
        have : (a :: a :: t').toFinset = (a :: t').toFinset := by simp
        rw [this, ← ihr]
        simp [changes]
      · have hnotmem : a ∉ (b :: t').toFinset := by
          rw [List.mem_toFinset]
          intro hmem
          rcases List.mem_cons.mp hmem with h | h
          · exact heqab h
          · have hba : lexLe (ckey b) (ckey a) = true :=
              (List.pairwise_cons.mp htail).1 a h
            exact heqab (ckey_inj (lexLe_antisymm hab hba))
        have hcard : (a :: b :: t').toFinset.card = (b :: t').toFinset.card + 1 := by
          rw [List.toFinset_cons, Finset.card_insert_of_not_mem hnotmem]
        rw [hcard, ← ihr]
        simp [changes, heqab]
        omega

/-- C5 counterexample: on the two-cell input `[(0,0,(0,0,0)), (0,0,(1,1,1))]` the
optimized output has 1 color transition, while "distinct colors minus colors in
only one contiguous run" is 2 - 2 = 0: the claimed formula fails. -/
theorem transitions_formula_counterexample :
    ¬ (transitions (optimize_drawing_order [(0, 0, (0, 0, 0)), (0, 0, (1, 1, 1))]) =
        distinctColors (optimize_drawing_order [(0, 0, (0, 0, 0)), (0, 0, (1, 1, 1))]) -
          singleRunColors (optimize_drawing_order [(0, 0, (0, 0, 0)), (0, 0, (1, 1, 1))])) := by
  have h : List.mergeSort [((0 : ℕ), (0 : ℕ), ((0 : ℕ), (0 : ℕ), (0 : ℕ))),
      (0, 0, (1, 1, 1))] pixLe = [(0, 0, (0, 0, 0)), (0, 0, (1, 1, 1))] :=
    List.mergeSort_of_sorted (by decide)
  simp only [optimize_drawing_order]
  rw [h]
  decide

/-- C5 (amended): the output of `optimize_drawing_order` has exactly
(number of distinct colors - 1) color transitions for non-empty input, and 0 for
empty input: after the sort every distinct color occupies exactly one contiguous
run, so the transition count is one less than the distinct color count. -/
theorem transitions_optimize (l : List Pixel) :
    (l = [] → transitions (optimize_drawing_order l) = 0) ∧
    (l ≠ [] → transitions (optimize_drawing_order l) + 1 = distinctColors l) := by
  constructor
  · rintro rfl
    have h : List.mergeSort ([] : List Pixel) pixLe = [] := List.mergeSort_nil
    simp only [optimize_drawing_order]
    rw [h]
    rfl
  · intro hne
    have hsorted : (l.mergeSort pixLe).Pairwise (fun p q => pixLe p q = true) :=
      @List.sorted_mergeSort Pixel pixLe (fun a b c hab hbc => pixLe_trans hab hbc)
        pixLe_total l
    have hcolors : ((l.mergeSort pixLe).map colorOf).Pairwise
        (fun c d => lexLe (ckey c) (ckey d) = true) := by
      refine hsorted.map colorOf ?_
      intro a b hab
      exact lexLe_append rfl hab
    have hne' : (l.mergeSort pixLe).map colorOf ≠ [] := by
      intro hmap
      have h1 : l.mergeSort pixLe = [] := List.map_eq_nil_iff.mp hmap
      have h2 : (l.mergeSort pixLe).length = l.length :=
        (List.mergeSort_perm l pixLe).length_eq
      rw [h1] at h2
      exact hne (List.length_eq_zero.mp h2.symm)
    have hch := changes_sorted _ hcolors hne'
    have hpermmap : ((l.mergeSort pixLe).map colorOf).Perm (l.map colorOf) :=
      (List.mergeSort_perm l pixLe).map colorOf
    have hfin : ((l.mergeSort pixLe).map colorOf).toFinset = (l.map colorOf).toFinset :=
      List.toFinset_eq_of_perm _ _ hpermmap
    simp only [transitions, optimize_drawing_order, distinctColors]
    rw [← hfin]
    exact hch

/-- Witness for the amended C5 theorem at a concrete non-empty input. -/
theorem transitions_optimize_witness :
    ([(0, 0, (0, 0, 0)), (3, 1, (1, 1, 1))] : List Pixel) ≠ [] ∧
    transitions (optimize_drawing_order [(0, 0, (0, 0, 0)), (3, 1, (1, 1, 1))]) + 1 =
      distinctColors [(0, 0, (0, 0, 0)), (3, 1, (1, 1, 1))] :=
  ⟨by decide, (transitions_optimize _).2 (by decide)⟩

/-! ### `StateManager` (src/core/state_manager.py)

The two boolean flags guarded by the lock, the mutating operations `stop` and
`toggle_pause` (lines 41-54), and the flag reads `is_running` / `is_paused`
(lines 21-39).  The lock serializes flag accesses, so the shared state is a pure
value transformed by one operation at a time. -/

/-- The flag state held by `StateManager`: `_running` and `_paused`. -/
structure StateManager where
  running : Bool
  paused : Bool
deriving DecidableEq

/-- `__init__` (lines 13-19): `_running = True`, `_paused = False`. -/
def StateManager.init : StateManager := ⟨true, false⟩

/-- `is_running` (lines 21-29). -/
def StateManager.is_running (s : StateManager) : Bool := s.running

/-- `is_paused` (lines 31-39). -/
def StateManager.is_paused (s : StateManager) : Bool := s.paused

/-- `stop` (lines 41-47): only acts when `_running` is still set. -/
def StateManager.stop (s : StateManager) : StateManager :=
  if s.running then { running := false, paused := false } else s

/-- `toggle_pause` (lines 49-54): unconditionally flips `_paused`. -/
def StateManager.toggle_pause (s : StateManager) : StateManager :=
  { s with paused := !s.paused }

/-- The tri-state `RunState` of the spec's data model. -/
inductive RunState
  | Running
  | Paused
  | Stopped
deriving DecidableEq

/-- The `RunState` a poll observes.  Every poll site in the pipeline
(`wait_while_paused`, lines 56-68, and the bare `is_running` guards) reports
stopped whenever `_running` is false, before considering the pause flag, so the
observed tri-state is: Stopped if not running, else Paused if paused, else
Running. -/
def StateManager.poll (s : StateManager) : RunState :=
  if !s.is_running then .Stopped else if s.is_paused then .Paused else .Running

/-- The operations the asynchronous control-signal thread can apply to the
shared state. -/
inductive SMOp
  | stopOp
  | togglePauseOp
deriving DecidableEq

/-- Apply one control operation. -/
def SMOp.apply (s : StateManager) : SMOp → StateManager
  | .stopOp => s.stop
  | .togglePauseOp => s.toggle_pause

/-- Apply a sequence of control operations in order. -/
def applyOps (s : StateManager) (ops : List SMOp) : StateManager :=
  ops.foldl SMOp.apply s

theorem poll_stopped_iff (s : StateManager) : s.poll = .Stopped ↔ s.running = false := by
  obtain ⟨r, p⟩ := s
  cases r <;> cases p <;> simp [StateManager.poll, StateManager.is_running,
    StateManager.is_paused]

/-- C1: `stop()` drives the observed state to Stopped, and Stopped is terminal:
after any further sequence of `stop()` / `toggle_pause()` calls, every poll
still yields Stopped and never Running or Paused. -/
theorem stopped_terminal (s : StateManager) (ops : List SMOp) :
    (s.stop).poll = .Stopped ∧
    (s.poll = .Stopped →
      (applyOps s ops).poll = .Stopped ∧
      (applyOps s ops).poll ≠ .Running ∧ (applyOps s ops).poll ≠ .Paused) := by
  constructor
  · rw [poll_stopped_iff]
    obtain ⟨r, p⟩ := s
    cases r <;> simp [StateManager.stop]
  · intro hstop
    have key : ∀ (t : StateManager) (l : List SMOp), t.running = false →
        (applyOps t l).running = false := by
      intro t l
      induction l generalizing t with
      | nil => intro h; exact h
      | cons op rest ih =>
        intro h
        have hop : (SMOp.apply t op).running = false := by
          cases op with
          | stopOp =>
            obtain ⟨r, p⟩ := t
            cases r <;> simp_all [SMOp.apply, StateManager.stop]
          | togglePauseOp =>
            simpa [SMOp.apply, StateManager.toggle_pause] using h
        exact ih _ hop
    have hrun : (applyOps s ops).running = false :=
      key s ops (poll_stopped_iff s |>.mp hstop)
    have hpoll : (applyOps s ops).poll = .Stopped := (poll_stopped_iff _).mpr hrun
    exact ⟨hpoll, by rw [hpoll]; simp, by rw [hpoll]; simp⟩

/-- Witness for C1: start, stop, then toggle pause and stop again; every poll
still observes Stopped. -/
theorem stopped_terminal_witness :
    (StateManager.init.stop).poll = .Stopped ∧
    (StateManager.init.stop).poll = .Stopped ∧
    (applyOps StateManager.init.stop
        [SMOp.togglePauseOp, SMOp.stopOp, SMOp.togglePauseOp]).poll = .Stopped :=
  ⟨(stopped_terminal StateManager.init []).1,
    (stopped_terminal StateManager.init []).1,
    ((stopped_terminal StateManager.init.stop
        [SMOp.togglePauseOp, SMOp.stopOp, SMOp.togglePauseOp]).2 (by decide)).1⟩

/-! ### `ColorMatcher.map_colors` (src/image_processing/color_matcher.py, lines 18-67)

The source converts both color sets to LAB (`rgb2lab`), computes pairwise
Euclidean distances (`cdist`) and picks `np.argmin` per image color — the first
index attaining the minimal distance.  The LAB conversion and the distance are
floating point; only the comparison order of the distances is consumed, so they
are abstracted as an explicit distance parameter `dist` into `ℤ`-valued keys.
The argmin-first-index selection and the map construction are embedded exactly. -/

/-- `np.argmin` over the values of `f` on a list: the first index attaining the
minimum (0 on the empty list, where numpy would raise). -/
def argminIdx {α : Type} (f : α → ℤ) : List α → ℕ
  | [] => 0
  | a :: t => if f (t.getD (argminIdx f t) a) < f a then argminIdx f t + 1 else 0

theorem getD_congr {α : Type} {l : List α} {n : ℕ} (h : n < l.length) (d d' : α) :
    l.getD n d = l.getD n d' := by
  rw [List.getD_eq_getElem?_getD, List.getD_eq_getElem?_getD, List.getElem?_eq_getElem h]
  rfl

theorem argminIdx_lt {α : Type} (f : α → ℤ) (l : List α) (h : l ≠ []) :
    argminIdx f l < l.length := by
  induction l with
  | nil => exact absurd rfl h
  | cons a t ih =>
    by_cases ht : t = []
    · subst ht
      simp [argminIdx]
    · simp only [argminIdx, List.length_cons]
      split_ifs
      · exact Nat.succ_lt_succ (ih ht)
      · exact Nat.succ_pos _

theorem argminIdx_spec_le {α : Type} (f : α → ℤ) (l : List α) :
    ∀ (d : α) (j : ℕ), j < l.length →
      f (l.getD (argminIdx f l) d) ≤ f (l.getD j d) := by
  induction l with
  | nil => intro d j hj; simp at hj
  | cons a t ih =>
    intro d j hj
    by_cases ht : t = []
    · subst ht
      have hj0 : j = 0 := by simpa using hj
      subst hj0
      simp [argminIdx]
    · have htlt : argminIdx f t < t.length := argminIdx_lt f t ht
      simp only [argminIdx]
      by_cases hlt : f (t.getD (argminIdx f t) a) < f a
      · rw [if_pos hlt]
        cases j with
        | zero =>
          simp only [List.getD_cons_succ, List.getD_cons_zero]
          calc f (t.getD (argminIdx f t) d) = f (t.getD (argminIdx f t) a) := by
                rw [getD_congr htlt]
            _ ≤ f a := le_of_lt hlt
        | succ k =>
          simp only [List.getD_cons_succ]
          exact ih d k (by simpa using hj)
      · rw [if_neg hlt]
        cases j with
        | zero => simp
        | succ k =>
          have hk : k < t.length := by simpa using hj
          simp only [List.getD_cons_zero, List.getD_cons_succ]
          have h1 : f a ≤ f (t.getD (argminIdx f t) a) := not_lt.mp hlt
          have h2 : f (t.getD (argminIdx f t) a) ≤ f (t.getD k a) := ih a k hk
          have h3 : f (t.getD k a) = f (t.getD k d) := by rw [getD_congr hk]
          calc f a ≤ f (t.getD (argminIdx f t) a) := h1
            _ ≤ f (t.getD k a) := h2
            _ = f (t.getD k d) := h3

theorem argminIdx_spec_first {α : Type} (f : α → ℤ) (l : List α) :
    ∀ (d : α) (j : ℕ), j < argminIdx f l →
      f (l.getD j d) > f (l.getD (argminIdx f l) d) := by
  induction l with
  | nil => intro d j hj; simp [argminIdx] at hj
  | cons a t ih =>
    intro d j hj
    simp only [argminIdx] at hj ⊢
    by_cases hlt : f (t.getD (argminIdx f t) a) < f a
    · rw [if_pos hlt] at hj ⊢
      have ht : t ≠ [] := by
        intro h
        subst h
        simp only [List.getD_nil] at hlt
        exact lt_irrefl _ hlt
      have htlt : argminIdx f t < t.length := argminIdx_lt f t ht
      cases j with
      | zero =>
        simp only [List.getD_cons_zero, List.getD_cons_succ]
        calc f (t.getD (argminIdx f t) d) = f (t.getD (argminIdx f t) a) := by
              rw [getD_congr htlt]
          _ < f a := hlt
      | succ k =>
        simp only [List.getD_cons_succ]
        exact ih d k (Nat.lt_of_succ_lt_succ hj)
    · rw [if_neg hlt] at hj
      exact absurd hj (Nat.not_lt_zero j)

/-- Default palette entry for the (never reached in-range) list accesses. -/
def dummySwatch : Color × Pt := ((0, 0, 0), (0, 0))

/-- `ColorMatcher.map_colors`: the empty guard of line 35 and the
nearest-palette-entry assignment of lines 52-58, keyed by the abstracted
distance `dist` between an image color and a palette color. -/
def map_colors (dist : Color → Color → ℤ) (image_colors : List Color)
    (palette_data : List (Color × Pt)) : List (Color × Pt) :=
  if image_colors = [] ∨ palette_data = [] then []
  else image_colors.map (fun c =>
    (c, (palette_data.getD (argminIdx (fun e => dist c e.1) palette_data) dummySwatch).2))

/-- C3: `map_colors` assigns every image color the click point of a palette
entry of minimal distance, ties resolved to the lowest index; with a single
swatch everything maps to that swatch's point; an empty color set or palette
yields the empty map. -/
theorem map_colors_nearest (dist : Color → Color → ℤ) (ic : List Color)
    (pal : List (Color × Pt)) :
    ((ic = [] ∨ pal = []) → map_colors dist ic pal = []) ∧
    (∀ sw : Color × Pt, map_colors dist ic [sw] = ic.map (fun c => (c, sw.2))) ∧
    (∀ c ∈ ic, pal ≠ [] →
      ∃ i, i < pal.length ∧
        (c, (pal.getD i dummySwatch).2) ∈ map_colors dist ic pal ∧
        (∀ j, j < pal.length →
          dist c (pal.getD i dummySwatch).1 ≤ dist c (pal.getD j dummySwatch).1) ∧
        (∀ j, j < i →
          dist c (pal.getD j dummySwatch).1 > dist c (pal.getD i dummySwatch).1)) := by
  refine ⟨?_, ?_, ?_⟩
  · intro h
    unfold map_colors
    rw [if_pos h]
  · intro sw
    by_cases hic : ic = []
    · subst hic
      simp [map_colors]
    · unfold map_colors
      rw [if_neg (by simp [hic])]
      simp [argminIdx]
  · intro c hc hpal
    have hic : ic ≠ [] := by intro h; subst h; simp at hc
    refine ⟨argminIdx (fun e => dist c e.1) pal, argminIdx_lt _ pal hpal, ?_, ?_, ?_⟩
    · unfold map_colors
      rw [if_neg (by simp [hic, hpal])]
      exact List.mem_map.mpr ⟨c, hc, rfl⟩
    · intro j hj
      exact argminIdx_spec_le (fun e => dist c e.1) pal dummySwatch j hj
    · intro j hj
      exact argminIdx_spec_first (fun e => dist c e.1) pal dummySwatch j hj

/-- C4: `map_colors` is total over its input: with a non-empty palette the key
list of the result is exactly `image_colors`; with an empty palette the result
is empty, so a color is a key of the result iff the palette is non-empty. -/
theorem map_colors_total (dist : Color → Color → ℤ) (ic : List Color)
    (pal : List (Color × Pt)) :
    (pal = [] → map_colors dist ic pal = []) ∧
    (pal ≠ [] → (map_colors dist ic pal).map Prod.fst = ic) ∧
    (∀ c ∈ ic, (∃ pt : Pt, (c, pt) ∈ map_colors dist ic pal) ↔ pal ≠ []) := by
  refine ⟨?_, ?_, ?_⟩
  · intro h
    unfold map_colors
    rw [if_pos (Or.inr h)]
  · intro hpal
    by_cases hic : ic = []
    · subst hic
      simp [map_colors]
    · unfold map_colors
      rw [if_neg (by simp [hic, hpal])]
      rw [List.map_map]
      exact List.map_id'' (fun x => rfl) ic
  · intro c hc
    constructor
    · rintro ⟨pt, hmem⟩ hpal
      unfold map_colors at hmem
      rw [if_pos (Or.inr hpal)] at hmem
      simp at hmem
    · intro hpal
      have hic : ic ≠ [] := by intro h; subst h; simp at hc
      refine ⟨(pal.getD (argminIdx (fun e => dist c e.1) pal) dummySwatch).2, ?_⟩
      unfold map_colors
      rw [if_neg (by simp [hic, hpal])]
      exact List.mem_map.mpr ⟨c, hc, rfl⟩

/-- Squared RGB distance, a concrete stand-in for the abstracted distance in
the witnesses. -/
def sqDist (c d : Color) : ℤ :=
  ((c.1 : ℤ) - d.1) ^ 2 + ((c.2.1 : ℤ) - d.2.1) ^ 2 + ((c.2.2 : ℤ) - d.2.2) ^ 2

/-- Concrete image-color list for the witnesses. -/
def icW : List Color := [(1, 2, 3)]

/-- Concrete palette for the witnesses. -/
def palW : List (Color × Pt) := [((0, 0, 0), (5, 5))]

/-- Witness for C3 at a concrete input. -/
theorem map_colors_nearest_witness :
    ((1, 2, 3) : Color) ∈ icW ∧ palW ≠ [] ∧
    (∃ i, i < palW.length ∧
      (((1, 2, 3) : Color), (palW.getD i dummySwatch).2) ∈ map_colors sqDist icW palW ∧
      (∀ j, j < palW.length →
        sqDist (1, 2, 3) (palW.getD i dummySwatch).1 ≤
          sqDist (1, 2, 3) (palW.getD j dummySwatch).1) ∧
      (∀ j, j < i →
        sqDist (1, 2, 3) (palW.getD j dummySwatch).1 >
          sqDist (1, 2, 3) (palW.getD i dummySwatch).1)) :=
  ⟨by decide, by decide,
    (map_colors_nearest sqDist icW palW).2.2 (1, 2, 3) (by decide) (by decide)⟩

/-- Witness for C4 at a concrete input. -/
theorem map_colors_total_witness :
    palW ≠ [] ∧ (map_colors sqDist icW palW).map Prod.fst = icW ∧
    ((1, 2, 3) : Color) ∈ icW ∧
    ((∃ pt : Pt, (((1, 2, 3) : Color), pt) ∈ map_colors sqDist icW palW) ↔ palW ≠ []) :=
  ⟨by decide, (map_colors_total sqDist icW palW).2.1 (by decide), by decide,
    (map_colors_total sqDist icW palW).2.2 (1, 2, 3) (by decide)⟩

/-! ### Canvas grid derivation (src/capture/canvas_detector.py, lines 108-134)

From the surviving candidate cell rectangles, the source averages candidate
widths/heights (`int(np.mean(...))`, an exact floor for these non-negative
integers), takes the bounding box over all candidate corners, and derives
`cell_cols = max(1, canvas_width // avg_cell_width)` (and rows likewise); then
optionally swaps the two for an assumed portrait orientation. -/

/-- A candidate cell rectangle in screen coordinates: `(x1, y1, x2, y2)`. -/
abbrev Cand : Type := ℕ × ℕ × ℕ × ℕ

/-- Width `rect[2] - rect[0]` of a candidate. -/
def cand_w (r : Cand) : ℕ := r.2.2.1 - r.1

/-- Height `rect[3] - rect[1]` of a candidate. -/
def cand_h (r : Cand) : ℕ := r.2.2.2 - r.2.1

/-- `int(np.mean(cell_widths))` (line 111): floor of the mean. -/
def avg_cell_width (rects : List Cand) : ℕ := (rects.map cand_w).sum / rects.length

/-- `int(np.mean(cell_heights))` (line 112). -/
def avg_cell_height (rects : List Cand) : ℕ := (rects.map cand_h).sum / rects.length

/-- `min` over a non-empty list (`0` if empty, unreached in the source). -/
def natMin : List ℕ → ℕ
  | [] => 0
  | a :: t => t.foldl Nat.min a

/-- `max` over a non-empty list (`0` if empty, unreached in the source). -/
def natMax : List ℕ → ℕ
  | [] => 0
  | a :: t => t.foldl Nat.max a

/-- Lines 124-125: `cell_cols = max(1, canvas_width // avg_cell_width)` and
`cell_rows = max(1, canvas_height // avg_cell_height)`. -/
def grid_from (canvasW canvasH avgW avgH : ℕ) : ℕ × ℕ :=
  (max 1 (canvasW / avgW), max 1 (canvasH / avgH))

/-- Lines 101-125 of `detect_canvas` after contour filtering: `none` when no
candidate survived, else the bounding box over all candidate corners and the
grid derived from the averaged cell size. -/
def detect_canvas_grid (rects : List Cand) : Option ((ℕ × ℕ) × (ℕ × ℕ) × (ℕ × ℕ)) :=
  if rects = [] then none
  else
    let allX := rects.map (fun r => r.1) ++ rects.map (fun r => r.2.2.1)
    let allY := rects.map (fun r => r.2.1) ++ rects.map (fun r => r.2.2.2)
    let tl := (natMin allX, natMin allY)
    let br := (natMax allX, natMax allY)
    some (tl, br,
      grid_from (br.1 - tl.1) (br.2 - tl.2) (avg_cell_width rects) (avg_cell_height rects))

/-- C6: the derived grid is `max(1, canvasWidth / avgCellWidth)` by
`max(1, canvasHeight / avgCellHeight)`, hence at least 1×1; for a 200×200
canvas assembled from ten 20×20 candidate cells the derivation yields bounding
box ((0,300),(200,500)) and a 10×10 grid, before orientation correction. -/
theorem detect_canvas_grid_spec :
    (∀ w h aw ah : ℕ, 0 < w → 0 < h → 0 < aw → 0 < ah →
      grid_from w h aw ah = (max 1 (w / aw), max 1 (h / ah)) ∧
      1 ≤ (grid_from w h aw ah).1 ∧ 1 ≤ (grid_from w h aw ah).2) ∧
    detect_canvas_grid
        [(0, 300, 20, 320), (20, 320, 40, 340), (40, 340, 60, 360), (60, 360, 80, 380),
         (80, 380, 100, 400), (100, 400, 120, 420), (120, 420, 140, 440),
         (140, 440, 160, 460), (160, 460, 180, 480), (180, 480, 200, 500)] =
      some ((0, 300), (200, 500), (10, 10)) := by
  constructor
  · intro w h aw ah _ _ _ _
    exact ⟨rfl, le_max_left _ _, le_max_left _ _⟩
  · decide

/-- Witness for C6 at the scenario's canvas and cell dimensions. -/
theorem detect_canvas_grid_spec_witness :
    ((0 : ℕ) < 200 ∧ (0 : ℕ) < 200 ∧ (0 : ℕ) < 20 ∧ (0 : ℕ) < 20) ∧
    (grid_from 200 200 20 20 = (max 1 (200 / 20), max 1 (200 / 20)) ∧
      1 ≤ (grid_from 200 200 20 20).1 ∧ 1 ≤ (grid_from 200 200 20 20).2) :=
  ⟨⟨by decide, by decide, by decide, by decide⟩,
    detect_canvas_grid_spec.1 200 200 20 20 (by decide) (by decide) (by decide) (by decide)⟩

/-- Lines 127-134: if `assume_portrait` and `cell_cols > cell_rows`, swap the
two grid dimensions. -/
def orient_correct (assume_portrait : Bool) (g : ℕ × ℕ) : ℕ × ℕ :=
  if assume_portrait = true ∧ g.2 < g.1 then (g.2, g.1) else g

/-- C8: orientation correction is idempotent, and whenever the swap condition
held with `assume_portrait`, the corrected grid satisfies cols ≤ rows. -/
theorem orient_correct_spec (ap : Bool) (g : ℕ × ℕ) :
    orient_correct ap (orient_correct ap g) = orient_correct ap g ∧
    (ap = true → g.2 < g.1 →
      (orient_correct ap g).1 ≤ (orient_correct ap g).2) := by
  obtain ⟨c, r⟩ := g
  by_cases hap : ap = true
  · by_cases hrc : r < c
    · have hswap : orient_correct ap (c, r) = (r, c) := by
        simp [orient_correct, hap, hrc]
      have hfix : orient_correct ap (r, c) = (r, c) := by
        simp only [orient_correct]
        rw [if_neg]
        rintro ⟨-, h2⟩
        exact absurd h2 (Nat.lt_asymm hrc)
      refine ⟨by rw [hswap, hfix], ?_⟩
      intro _ _
      rw [hswap]
      exact le_of_lt hrc
    · have hfix : orient_correct ap (c, r) = (c, r) := by
        simp only [orient_correct]
        rw [if_neg]
        rintro ⟨-, h2⟩
        exact absurd h2 hrc
      refine ⟨by rw [hfix, hfix], ?_⟩
      intro _ hlt
      exact absurd hlt hrc
  · have hfix : ∀ p : ℕ × ℕ, orient_correct ap p = p := by
      intro p
      simp [orient_correct, hap]
    refine ⟨by rw [hfix, hfix], ?_⟩
    intro hap'
    exact absurd hap' hap

/-- Witness for C8 at a concrete landscape grid. -/
theorem orient_correct_spec_witness :
    (orient_correct true (orient_correct true (3, 2)) = orient_correct true (3, 2)) ∧
    (true = true) ∧ ((3, 2) : ℕ × ℕ).2 < ((3, 2) : ℕ × ℕ).1 ∧
    (orient_correct true (3, 2)).1 ≤ (orient_correct true (3, 2)).2 :=
  ⟨(orient_correct_spec true (3, 2)).1, rfl, by decide,
    (orient_correct_spec true (3, 2)).2 rfl (by decide)⟩

/-! ### Click coordinates of `clear_canvas` / `draw_image`
(src/core/process_controller.py, lines 278-321 and 372-402)

Both loops compute `step = canvas_extent / cells` (true division),
`screen = int(top_left + index * step + step / 2)` and then clamp the result to
`[top_left, bottom_right - 1]`.  The real value of the expression is the exact
fraction `(top_left * 2 * cells + (2 * index + 1) * extent) / (2 * cells)`;
`int()` truncates it toward zero.  IEEE rounding of the `float` steps is not
modelled; it coincides with the exact value on the concrete scenario below, and
the clamping bounds are independent of it. -/

/-- Python `int(n / d)` for integer `n` and positive integer `d`: the quotient
truncated toward zero. -/
def truncDiv (n : ℤ) (d : ℕ) : ℤ :=
  if 0 ≤ n then ((n.toNat / d : ℕ) : ℤ) else -(((-n).toNat / d : ℕ) : ℤ)

/-- `int(top_left + index * step + step / 2)` with `step = extent / cells`,
evaluated exactly (lines 305-308 / 392-393). -/
def cell_center_coord (tl extent : ℤ) (cells index : ℕ) : ℤ :=
  truncDiv (tl * (2 * cells) + (2 * index + 1) * extent) (2 * cells)

/-- The clamp `min(max(v, lo), hi - 1)` of lines 310-313 / 394-397. -/
def clampCoord (v lo hi : ℤ) : ℤ := min (max v lo) (hi - 1)

/-- Screen click point for grid cell `(x, y)` on canvas `[tl, br]` with
`cols × rows` cells, as computed (and clamped) by both `clear_canvas` and
`draw_image`. -/
def cell_click_point (tl br : Pt) (cols rows x y : ℕ) : Pt :=
  (clampCoord (cell_center_coord tl.1 (br.1 - tl.1) cols x) tl.1 br.1,
   clampCoord (cell_center_coord tl.2 (br.2 - tl.2) rows y) tl.2 br.2)

/-- One pointer action issued through `MouseController`. -/
inductive PointerAction
  | select_color (p : Pt)
  | click (p : Pt)
deriving DecidableEq

/-- The action trace of `clear_canvas` (lines 289-318) when the shared state
stays Running throughout: one eraser selection, then one click per grid cell,
rows outer and columns inner (row-major). -/
def clear_canvas_trace (tl br : Pt) (cols rows : ℕ) (eraser : Pt) :
    List PointerAction :=
  PointerAction.select_color eraser ::
    ((List.range rows).map (fun y =>
      (List.range cols).map (fun x =>
        PointerAction.click (cell_click_point tl br cols rows x y)))).flatten

/-- C7: clearing a 2×2 grid on canvas ((0,0),(20,20)) selects the eraser once
and then clicks (5,5), (15,5), (5,15), (15,15), in that row-major order. -/
theorem clear_canvas_trace_2x2 (eraser : Pt) :
    clear_canvas_trace (0, 0) (20, 20) 2 2 eraser =
      [PointerAction.select_color eraser, PointerAction.click (5, 5),
        PointerAction.click (15, 5), PointerAction.click (5, 15),
        PointerAction.click (15, 15)] := by
  rfl

/-- C10: every issued click coordinate is clamped into the canvas rectangle:
for any grid size and cell index, the click point lies in
`[x1, x2-1] × [y1, y2-1]`. -/
theorem cell_click_point_in_canvas (tl br : Pt) (cols rows x y : ℕ)
    (hx : tl.1 < br.1) (hy : tl.2 < br.2) :
    tl.1 ≤ (cell_click_point tl br cols rows x y).1 ∧
    (cell_click_point tl br cols rows x y).1 ≤ br.1 - 1 ∧
    tl.2 ≤ (cell_click_point tl br cols rows x y).2 ∧
    (cell_click_point tl br cols rows x y).2 ≤ br.2 - 1 := by
  simp only [cell_click_point, clampCoord]
  refine ⟨?_, ?_, ?_, ?_⟩
  · exact le_min (le_max_right _ _) (by omega)
  · exact min_le_right _ _
  · exact le_min (le_max_right _ _) (by omega)
  · exact min_le_right _ _

/-- Witness for C10 on the C7 scenario's canvas with an out-of-range cell
index. -/
theorem cell_click_point_in_canvas_witness :
    ((0 : ℤ), (0 : ℤ)).1 < ((20 : ℤ), (20 : ℤ)).1 ∧
    ((0 : ℤ), (0 : ℤ)).2 < ((20 : ℤ), (20 : ℤ)).2 ∧
    ((0 : ℤ) ≤ (cell_click_point (0, 0) (20, 20) 2 2 7 9).1 ∧
      (cell_click_point (0, 0) (20, 20) 2 2 7 9).1 ≤ 20 - 1 ∧
      (0 : ℤ) ≤ (cell_click_point (0, 0) (20, 20) 2 2 7 9).2 ∧
      (cell_click_point (0, 0) (20, 20) 2 2 7 9).2 ≤ 20 - 1) :=
  ⟨by decide, by decide,
    cell_click_point_in_canvas (0, 0) (20, 20) 2 2 7 9 (by decide) (by decide)⟩

/-! ### Delay validation in `ConfigLoader._validate_config`
(src/utils/config_loader.py, lines 33-39 and 92-95)

`_load_config` documents the defaults `click_delay=0.5`,
`color_change_delay=0.08`, `clear_click_delay=0.5`, `failsafe_delay=0.01`.
The validation loop, however, replaces every missing, non-numeric or
non-positive delay by the constant `0.5` — for every one of the four keys. -/

/-- The four delay options validated by the loop of lines 92-95. -/
inductive DelayKey
  | click_delay
  | color_change_delay
  | clear_click_delay
  | failsafe_delay
deriving DecidableEq

/-- The documented defaults of `default_config` (lines 36-39). -/
def delay_default : DelayKey → ℚ
  | .click_delay => 1 / 2
  | .color_change_delay => 2 / 25
  | .clear_click_delay => 1 / 2
  | .failsafe_delay => 1 / 100

/-- One step of the validation loop (lines 93-95): `none` models a missing or
non-numeric configured value; any invalid value is replaced by `0.5`,
independently of the key. -/
def validate_delay (v : Option ℚ) : ℚ :=
  match v with
  | none => 1 / 2
  | some x => if x ≤ 0 then 1 / 2 else x

/-- C9 evaluation: for the out-of-range configured value `failsafe_delay = -1`
the validation loop substitutes `0.5`, which differs from the documented
default `0.01` it is specified to substitute; an in-range value is kept. -/
theorem validate_delay_failsafe_bug :
    validate_delay (some (-1)) = 1 / 2 ∧
    delay_default DelayKey.failsafe_delay = 1 / 100 ∧
    validate_delay (some (-1)) ≠ delay_default DelayKey.failsafe_delay ∧
    validate_delay (some (3 / 10)) = 3 / 10 := by
  refine ⟨?_, rfl, ?_, ?_⟩
  · norm_num [validate_delay]
  · norm_num [validate_delay, delay_default]
  · norm_num [validate_delay]
